import Mathlib

/-!
Verification of the lazy composition engine of py-aiger (file aiger/lazy.py),
against the natural-language specification of the repository.

The node model and the evaluation machinery live in aiger/aig.py, which is not
part of the sources given here; those parts are modelled from the specification
and are marked as such in their doc comments.  Everything operating on
LazyAIG values is a direct translation of aiger/lazy.py.

Conventions of the embedding:
 - Python persistent maps (pyrsistent PMap) become association lists with
   first-match lookup; the pyrsistent update m1 + m2, in which entries of m2
   win, becomes pmAdd m1 m2 = m2 ++ m1.
 - Python sets of names become Finset String.
 - A Python assert becomes an Except PyErr result: the guarded operation
   returns Except.error PyErr.assertionError exactly when the assert fires.
 - Generators of node batches become plain lists of batches; re-invoking a
   factory is the identity on a pure value, so the restartability contract
   holds by construction.
-/

/-- Modelled from the spec, section 3 (the node model lives in aiger/aig.py,
absent from src/): graph primitives of an And-Inverter Graph.  Const is the
boolean constant false; true is represented as Not(Const).  Nodes are
immutable and structurally compared. -/
inductive Node where
  | constFalse
  | input (name : String)
  | latchIn (name : String)
  | andGate (left right : Node)
  | inverter (inp : Node)
deriving DecidableEq, Repr

/-- Modelled from the spec, section 3: an item of a node-batch stream is
either an ordinary node or a Shim substitution marker with a new and an old
node (class Shim of aiger/aig.py, absent from src/). -/
inductive BatchNode where
  | pure (n : Node)
  | shim (new old : Node)
deriving DecidableEq, Repr

/-- Association-list stand-in for a pyrsistent PMap with string keys. -/
abbrev PM (α : Type) := List (String × α)

/-- First-match lookup in an association list. -/
def pmLookup {α : Type} : PM α → String → Option α
  | [], _ => none
  | (k, v) :: rest, k' => if k = k' then some v else pmLookup rest k'

/-- The pyrsistent update m1 + m2: entries of m2 shadow entries of m1. -/
def pmAdd {α : Type} (m1 m2 : PM α) : PM α := m2 ++ m1

/-- Key set of an association list, as a finite set of names. -/
def pmKeys {α : Type} (m : PM α) : Finset String := (m.map Prod.fst).toFinset

/-- funcy fn.omit: drop the entries whose key lies in the given set. -/
def pmOmit {α : Type} (m : PM α) (s : Finset String) : PM α :=
  m.filter (fun kv => decide (kv.1 ∉ s))

/-- funcy walk_keys: rename every key by f, keeping values. -/
def pmWalkKeys {α : Type} (f : String → String) (m : PM α) : PM α :=
  m.map (fun kv => (f kv.1, kv.2))

/-- Apply f to every value of an association list, keeping keys. -/
def pmMapVals {α β : Type} (f : α → β) (m : PM α) : PM β :=
  m.map (fun kv => (kv.1, f kv.2))

/-- Modelled from the spec, section 3: is this node the constant true, i.e.
Not(Const)?  (function _is_const_true of aiger/aig.py, absent from src/.) -/
def is_const_true : Node → Bool
  | Node.inverter Node.constFalse => true
  | _ => false

/-- Translation of class NodeAlgebra of aiger/lazy.py: a node wrapper whose
boolean connectives simplify opportunistically while building nodes. -/
structure NodeAlgebra where
  node : Node
deriving DecidableEq, Repr

/-- NodeAlgebra.__and__ of aiger/lazy.py. -/
def NodeAlgebra.and (self other : NodeAlgebra) : NodeAlgebra :=
  if self.node = Node.constFalse then self
  else if other.node = Node.constFalse then other
  else if is_const_true self.node then other
  else if is_const_true other.node then self
  else ⟨Node.andGate self.node other.node⟩

/-- NodeAlgebra.__invert__ of aiger/lazy.py. -/
def NodeAlgebra.invert (self : NodeAlgebra) : NodeAlgebra :=
  match self.node with
  | Node.inverter n => ⟨n⟩
  | n => ⟨Node.inverter n⟩

/-- Errors a Python call can raise: a failed assert, or an unimplemented
method. -/
inductive PyErr where
  | assertionError
  | notImplementedError
deriving DecidableEq, Repr

/-- Translation of class AIG of aiger/aig.py as far as the lazy engine needs
it (the spec, section 4.2, fixes this interface): a materialized circuit with
its input names, output and latch maps, latch initial values, comments and a
node-batch stream in a valid topological order. -/
structure AIG where
  iter_nodes : List (List BatchNode)
  inputs : Finset String
  node_map : PM Node
  latch_map : PM Node
  latch2init : PM Bool
  comments : List String
deriving DecidableEq

/-- Translation of class LazyAIG of aiger/lazy.py. -/
structure LazyAIG where
  iter_nodes : List (List BatchNode)
  inputs : Finset String
  latch2init : PM Bool
  node_map : PM Node
  latch_map : PM Node
  comments : List String
deriving DecidableEq

/-- LazyAIG.outputs of aiger/lazy.py: the key set of node_map. -/
def LazyAIG.outputs (c : LazyAIG) : Finset String := pmKeys c.node_map

/-- LazyAIG.latches of aiger/lazy.py: the key set of latch_map. -/
def LazyAIG.latches (c : LazyAIG) : Finset String := pmKeys c.latch_map

/-- Translation of the function lazy of aiger/lazy.py: lift an eager AIG to a
LazyAIG, reusing its batch stream, input set and maps. -/
def lazy (circ : AIG) : LazyAIG :=
  { iter_nodes := circ.iter_nodes
    inputs := circ.inputs
    latch_map := circ.latch_map
    node_map := circ.node_map
    latch2init := circ.latch2init
    comments := circ.comments }

/-- The add_shims rewriting inside LazyAIG.__rshift__ of aiger/lazy.py: in a
batch of the downstream circuit, an Input item whose name lies in the
interface becomes a Shim binding that Input node to the node the upstream
circuit holds for that output name; every other item passes through.  The
Python code indexes node_map directly; the lookup cannot miss because the
interface is a subset of the upstream output names, so the embedding
totalises it with getD. -/
def addShims (interface : Finset String) (nm : PM Node) (batch : List BatchNode) :
    List BatchNode :=
  batch.map (fun item =>
    match item with
    | BatchNode.pure (Node.input n) =>
        if n ∈ interface then
          BatchNode.shim (Node.input n) ((pmLookup nm n).getD Node.constFalse)
        else item
    | _ => item)

/-- The unguarded body of LazyAIG.__rshift__ of aiger/lazy.py (everything
after the two asserts): cascading composition feeding self into other. -/
def LazyAIG.rshiftRaw (self other : LazyAIG) : LazyAIG :=
  let interface := self.outputs ∩ other.inputs
  let passthrough := pmOmit self.node_map interface
  { inputs := self.inputs ∪ (other.inputs \ interface)
    latch_map := pmAdd self.latch_map other.latch_map
    latch2init := pmAdd self.latch2init other.latch2init
    node_map := pmAdd other.node_map passthrough
    iter_nodes :=
      self.iter_nodes ++ other.iter_nodes.map (addShims interface self.node_map)
    comments := self.comments ++ other.comments }

/-- Translation of LazyAIG.__rshift__ of aiger/lazy.py, asserts included: the
composition returns a circuit when both namespace preconditions hold and
raises AssertionError otherwise. -/
def LazyAIG.rshift (self other : LazyAIG) : Except PyErr LazyAIG :=
  let interface := self.outputs ∩ other.inputs
  if ¬ ((self.outputs \ interface) ∩ other.outputs = ∅) then
    Except.error PyErr.assertionError
  else if ¬ (self.latches ∩ other.latches = ∅) then
    Except.error PyErr.assertionError
  else
    Except.ok (self.rshiftRaw other)

/-- The seen.add step of filter_seen in LazyAIG.__or__ of aiger/lazy.py: an
emitted Input node is recorded, any other node is not. -/
def seenAfter (seen : List Node) (n : Node) : List Node :=
  match n with
  | Node.input _ => n :: seen
  | _ => seen

/-- The filter_seen dedup inside LazyAIG.__or__ of aiger/lazy.py, on one list
of items: an item equal to an already seen node is dropped; a surviving Input
node is recorded as seen.  Returns the kept items and the updated seen set. -/
def filter_seen : List Node → List BatchNode → List BatchNode × List Node
  | seen, [] => ([], seen)
  | seen, BatchNode.pure n :: rest =>
      if n ∈ seen then filter_seen seen rest
      else
        let res := filter_seen (seenAfter seen n) rest
        (BatchNode.pure n :: res.1, res.2)
  | seen, BatchNode.shim a b :: rest =>
      let res := filter_seen seen rest
      (BatchNode.shim a b :: res.1, res.2)

/-- filter_seen threaded across a whole batch sequence, as the shared nonlocal
seen set does in LazyAIG.__or__ of aiger/lazy.py. -/
def filterSeenBatches : List Node → List (List BatchNode) → List (List BatchNode)
  | _, [] => []
  | seen, batch :: rest =>
    let res := filter_seen seen batch
    res.1 :: filterSeenBatches res.2 rest

/-- The unguarded body of LazyAIG.__or__ of aiger/lazy.py (everything after
the two asserts): parallel composition. -/
def LazyAIG.orRaw (self other : LazyAIG) : LazyAIG :=
  { inputs := self.inputs ∪ other.inputs
    latch_map := pmAdd self.latch_map other.latch_map
    latch2init := pmAdd self.latch2init other.latch2init
    node_map := pmAdd self.node_map other.node_map
    iter_nodes := filterSeenBatches [] (self.iter_nodes ++ other.iter_nodes)
    comments := self.comments ++ other.comments }

/-- Translation of LazyAIG.__or__ of aiger/lazy.py, asserts included. -/
def LazyAIG.or (self other : LazyAIG) : Except PyErr LazyAIG :=
  if ¬ (self.latches ∩ other.latches = ∅) then
    Except.error PyErr.assertionError
  else if ¬ (self.outputs ∩ other.outputs = ∅) then
    Except.error PyErr.assertionError
  else
    Except.ok (self.orRaw other)

/-- A loopback wiring descriptor, after the schema in the doc string of
LazyAIG.loopback of aiger/lazy.py. -/
structure Wiring where
  input : String
  output : String
  latch : Option String
  init : Bool
  keep_output : Bool
deriving DecidableEq, Repr

/-- Translation of LazyAIG.cutlatches of aiger/lazy.py: the body is a bare
raise NotImplementedError. -/
def LazyAIG.cutlatches (_self : LazyAIG) (_latches : Option (List String))
    (_renamer : Option (String → String)) :
    Except PyErr (LazyAIG × PM (String × String)) :=
  Except.error PyErr.notImplementedError

/-- Translation of LazyAIG.loopback of aiger/lazy.py: the body is a bare
raise NotImplementedError. -/
def LazyAIG.loopback (_self : LazyAIG) (_wirings : List Wiring) :
    Except PyErr LazyAIG :=
  Except.error PyErr.notImplementedError

/-- Translation of LazyAIG.unroll of aiger/lazy.py (arguments horizon, init,
omit_latches, only_last_outputs): the body is a bare raise
NotImplementedError. -/
def LazyAIG.unroll (_self : LazyAIG) (_horizon : Nat) (_init : Bool)
    (_omit_latches : Bool) (_only_last_outputs : Bool) :
    Except PyErr LazyAIG :=
  Except.error PyErr.notImplementedError

/-- Modelled from the spec, sections 4.3 and 6 (function tee of
aiger/common.py, absent from src/): the fan-out and rename adaptor used by
input relabeling.  Its argument maps each new input name to the list of old
input names that input drives; the circuit has those new names as inputs,
one output per old name bound to the corresponding Input node, and no
latches. -/
def tee (relabels : List (String × List String)) : AIG :=
  { iter_nodes := [relabels.map (fun kv => BatchNode.pure (Node.input kv.1))]
    inputs := (relabels.map Prod.fst).toFinset
    node_map := relabels.flatMap (fun kv => kv.2.map (fun o => (o, Node.input kv.1)))
    latch_map := []
    latch2init := []
    comments := [] }

/-- The relabel helper inside LazyAIG.__getitem__ of aiger/lazy.py:
relabels.get(k, k). -/
def relabelFn (relabels : PM String) (k : String) : String :=
  (pmLookup relabels k).getD k

/-- The kind i branch of LazyAIG.__getitem__ of aiger/lazy.py: input
relabeling composes a tee adaptor upstream, with relabels inverted into a
map from new name to the singleton list of the old name. -/
def LazyAIG.getitemInputs (self : LazyAIG) (relabels : PM String) :
    Except PyErr LazyAIG :=
  let relabels' := relabels.map (fun kv => (kv.2, [kv.1]))
  (lazy (tee relabels')).rshift self

/-- The kind o branch of LazyAIG.__getitem__ of aiger/lazy.py: a pure key
rename on node_map. -/
def LazyAIG.getitemOutputs (self : LazyAIG) (relabels : PM String) : LazyAIG :=
  { self with node_map := pmWalkKeys (relabelFn relabels) self.node_map }

/-- The rename_latches rewriting inside the kind l branch of
LazyAIG.__getitem__ of aiger/lazy.py: a LatchIn item whose name is listed in
relabels becomes the renamed LatchIn followed by a Shim binding the old
LatchIn node to the new one. -/
def renameLatchBatch (relabels : PM String) (batch : List BatchNode) :
    List BatchNode :=
  batch.flatMap (fun item =>
    match item with
    | BatchNode.pure (Node.latchIn n) =>
        if (pmLookup relabels n).isSome then
          [BatchNode.pure (Node.latchIn (relabelFn relabels n)),
           BatchNode.shim (Node.latchIn n) (Node.latchIn (relabelFn relabels n))]
        else [item]
    | _ => [item])

/-- The kind l branch of LazyAIG.__getitem__ of aiger/lazy.py: rename the
latch maps and rewrite the batch stream. -/
def LazyAIG.getitemLatches (self : LazyAIG) (relabels : PM String) : LazyAIG :=
  { self with
    latch_map := pmWalkKeys (relabelFn relabels) self.latch_map
    latch2init := pmWalkKeys (relabelFn relabels) self.latch2init
    iter_nodes := self.iter_nodes.map (renameLatchBatch relabels) }

/-- The value operations a batch walk interprets nodes with: a false value,
conjunction and negation.  Instantiated with booleans for concrete
evaluation and with NodeAlgebra for symbolic flattening, exactly as
AIG.__call__ is reused by LazyAIG in aiger/lazy.py. -/
structure CallAlg (V : Type) where
  falseV : V
  andV : V → V → V
  notV : V → V

/-- First-match lookup in a node-keyed table. -/
def tlookup {V : Type} : List (Node × V) → Node → Option V
  | [], _ => none
  | (k, v) :: rest, n => if k = n then some v else tlookup rest n

/-- Table lookup totalised with the false value of the algebra; in Python a
missing key would raise KeyError, and the stream validity predicate below
states that no lookup misses. -/
def tlookupD {V : Type} (alg : CallAlg V) (t : List (Node × V)) (n : Node) : V :=
  (tlookup t n).getD alg.falseV

/-- Modelled from the spec, sections 3, 4.1 and 4.2 (AIG.__call__ of
aiger/aig.py, absent from src/): process one batch item, extending the
value table.  An Input or LatchIn reads the corresponding environment; a
gate combines the already computed values of its operands; a Shim binds its
new node to the value already computed for its old node.  A later entry for
the same node shadows an earlier one, as assignment into a Python dict
does. -/
def runItem {V : Type} (alg : CallAlg V) (env lenv : String → V)
    (t : List (Node × V)) : BatchNode → List (Node × V)
  | BatchNode.pure Node.constFalse => (Node.constFalse, alg.falseV) :: t
  | BatchNode.pure (Node.input i) => (Node.input i, env i) :: t
  | BatchNode.pure (Node.latchIn n) => (Node.latchIn n, lenv n) :: t
  | BatchNode.pure (Node.andGate l r) =>
      (Node.andGate l r, alg.andV (tlookupD alg t l) (tlookupD alg t r)) :: t
  | BatchNode.pure (Node.inverter n) =>
      (Node.inverter n, alg.notV (tlookupD alg t n)) :: t
  | BatchNode.shim nw old => (nw, tlookupD alg t old) :: t

/-- Modelled from the spec, section 4.2: walk a flattened batch stream in
order, building the value table. -/
def runStream {V : Type} (alg : CallAlg V) (env lenv : String → V)
    (items : List BatchNode) (t : List (Node × V)) : List (Node × V) :=
  items.foldl (runItem alg env lenv) t

/-- Modelled from the spec, sections 4.2 and 6 (AIG.__call__ of aiger/aig.py,
absent from src/, shared by LazyAIG): evaluate the circuit on a total input
assignment and a total latch-state assignment, returning the output
assignment and the next latch-state assignment as maps from name to
value. -/
def LazyAIG.runWith {V : Type} (c : LazyAIG) (alg : CallAlg V)
    (env lenv : String → V) : (String → Option V) × (String → Option V) :=
  let t := runStream alg env lenv c.iter_nodes.flatten []
  (fun o => (pmLookup c.node_map o).map (fun nd => tlookupD alg t nd),
   fun l => (pmLookup c.latch_map l).map (fun nd => tlookupD alg t nd))

/-- The boolean algebra concrete evaluation uses. -/
def boolAlg : CallAlg Bool :=
  { falseV := false, andV := fun a b => a && b, notV := fun a => !a }

/-- Default latch-state assignment: each latch reads its declared initial
value, as evaluation without latch overrides does. -/
def initLenv (m : PM Bool) : String → Bool :=
  fun n => (pmLookup m n).getD false

/-- Modelled from the spec, section 6: LazyAIG.__call__ on a total boolean
input assignment, latch states defaulting to the initial values. -/
def LazyAIG.call (c : LazyAIG) (env : String → Bool) :
    (String → Option Bool) × (String → Option Bool) :=
  c.runWith boolAlg env (initLenv c.latch2init)

/-- The symbolic algebra flattening uses: NodeAlgebra with its simplifying
connectives, false being the wrapped Const node (aiger/lazy.py, property
aig). -/
def symAlg : CallAlg NodeAlgebra :=
  { falseV := ⟨Node.constFalse⟩, andV := NodeAlgebra.and, notV := NodeAlgebra.invert }

/-- Modelled from the spec, section 4.2: a spare topological batch for a
materialized graph, emitting every node after its operands.  The real eager
AIG computes such an order in aiger/aig.py, absent from src/; no claim below
depends on the exact order chosen here. -/
def Node.postorder : Node → List Node
  | Node.andGate l r => Node.postorder l ++ Node.postorder r ++ [Node.andGate l r]
  | Node.inverter n => Node.postorder n ++ [Node.inverter n]
  | n => [n]

/-- A default batch stream for a flattened AIG, built from its maps. -/
def defaultBatches (nm lm : PM Node) : List (List BatchNode) :=
  [((nm ++ lm).map Prod.snd).flatMap (fun nd => nd.postorder.map BatchNode.pure)]

/-- The symbolic input binding of the property LazyAIG.aig of aiger/lazy.py:
every input name denotes its own Input node. -/
def symEnv : String → NodeAlgebra := fun i => ⟨Node.input i⟩

/-- The symbolic latch binding of the property LazyAIG.aig of aiger/lazy.py:
a latch denotes the node of its initial value, the inverted false node when
the initial value is true and the false node otherwise. -/
def symLenv (li : PM Bool) : String → NodeAlgebra := fun n =>
  if (pmLookup li n).getD false then
    NodeAlgebra.invert ⟨Node.constFalse⟩
  else ⟨Node.constFalse⟩

/-- The symbolic value table the property LazyAIG.aig of aiger/lazy.py
computes by calling the circuit on the symbolic bindings. -/
def symTable (c : LazyAIG) : List (Node × NodeAlgebra) :=
  runStream symAlg symEnv (symLenv c.latch2init) c.iter_nodes.flatten []

/-- Translation of the property LazyAIG.aig of aiger/lazy.py: flatten the
lazy circuit by running its batch stream over the symbolic NodeAlgebra,
binding every declared input to its own Input node and every latch to the
node denoting its initial value, then unwrapping the resulting values back
into nodes. -/
def LazyAIG.aig (c : LazyAIG) : AIG :=
  let nm := pmMapVals (fun nd => (tlookupD symAlg (symTable c) nd).node) c.node_map
  let lm := pmMapVals (fun nd => (tlookupD symAlg (symTable c) nd).node) c.latch_map
  { iter_nodes := defaultBatches nm lm
    inputs := c.inputs
    node_map := nm
    latch_map := lm
    latch2init := c.latch2init
    comments := c.comments }

/-- Modelled from the spec, section 4.1: structural evaluation of a node
under total input and latch-state assignments. -/
def evalNode (env lenv : String → Bool) : Node → Bool
  | Node.constFalse => false
  | Node.input i => env i
  | Node.latchIn n => lenv n
  | Node.andGate l r => evalNode env lenv l && evalNode env lenv r
  | Node.inverter n => !(evalNode env lenv n)

/-- Modelled from the spec, sections 4.1 and 4.2: the output assignment of a
materialized circuit on a total input assignment, latch states defaulting to
the initial values. -/
def AIG.outputVals (c : AIG) (env : String → Bool) : String → Option Bool :=
  fun o => (pmLookup c.node_map o).map (evalNode env (initLenv c.latch2init))

/-- Does a batch item only reference names and nodes already available?  The
parameters are the declared input names, the latch initial values and the
nodes already defined by earlier items. -/
def itemOK (ins : Finset String) (li : PM Bool) (defined : List Node) :
    BatchNode → Bool
  | BatchNode.pure Node.constFalse => true
  | BatchNode.pure (Node.input i) => decide (i ∈ ins)
  | BatchNode.pure (Node.latchIn n) => (pmLookup li n).isSome
  | BatchNode.pure (Node.andGate l r) =>
      decide (l ∈ defined) && decide (r ∈ defined)
  | BatchNode.pure (Node.inverter n) => decide (n ∈ defined)
  | BatchNode.shim _ old => decide (old ∈ defined)

/-- The node a batch item defines in the value table. -/
def keyOf : BatchNode → Node
  | BatchNode.pure n => n
  | BatchNode.shim nw _ => nw

/-- Validity of a flattened batch stream, the invariant of section 3 of the
spec: walked in order, every item only references declared input names,
declared latches, and nodes defined by earlier items. -/
def streamOK (ins : Finset String) (li : PM Bool) :
    List Node → List BatchNode → Bool
  | _, [] => true
  | defined, item :: rest =>
      itemOK ins li defined item && streamOK ins li (keyOf item :: defined) rest

/-- A stream with no Shim item, as streams of materialized circuits are: the
spec, section 3, reserves Shim for streams produced by composition. -/
def shimFree : List BatchNode → Bool
  | [] => true
  | BatchNode.pure _ :: rest => shimFree rest
  | BatchNode.shim _ _ :: _ => false

theorem pmLookup_append {α : Type} (m1 m2 : PM α) (k : String) :
    pmLookup (m1 ++ m2) k =
      match pmLookup m1 k with
      | some v => some v
      | none => pmLookup m2 k := by
  induction m1 with
  | nil => simp [pmLookup]
  | cons kv rest ih =>
    obtain ⟨k', v⟩ := kv
    by_cases h : k' = k <;> simp [pmLookup, h, ih]

theorem pmLookup_isSome_iff {α : Type} (m : PM α) (k : String) :
    (pmLookup m k).isSome = true ↔ k ∈ pmKeys m := by
  induction m with
  | nil => simp [pmLookup, pmKeys]
  | cons kv rest ih =>
    obtain ⟨k', v⟩ := kv
    by_cases h : k' = k
    · subst h; simp [pmLookup, pmKeys]
    · simp [pmLookup, pmKeys, h, Ne.symm h] at ih ⊢
      exact ih

theorem pmKeys_append {α : Type} (m1 m2 : PM α) :
    pmKeys (m1 ++ m2) = pmKeys m1 ∪ pmKeys m2 := by
  simp [pmKeys]

theorem pmOmit_cons {α : Type} (k : String) (v : α) (m : PM α) (s : Finset String) :
    pmOmit ((k, v) :: m) s =
      if k ∈ s then pmOmit m s else (k, v) :: pmOmit m s := by
  by_cases h : k ∈ s <;> simp [pmOmit, List.filter_cons, h]

theorem pmLookup_omit {α : Type} (m : PM α) (s : Finset String) (k : String) :
    pmLookup (pmOmit m s) k = if k ∈ s then none else pmLookup m k := by
  induction m with
  | nil => simp [pmOmit, pmLookup]
  | cons kv rest ih =>
    obtain ⟨k', v⟩ := kv
    rw [pmOmit_cons]
    by_cases hk : k' ∈ s
    · by_cases h : k' = k
      · subst h
        simp [hk, ih]
      · simp [hk, pmLookup, h, ih]
    · by_cases h : k' = k
      · subst h
        simp [hk, pmLookup, ih]
      · simp [hk, pmLookup, h, ih]

theorem pmKeys_omit {α : Type} (m : PM α) (s : Finset String) :
    pmKeys (pmOmit m s) = pmKeys m \ s := by
  induction m with
  | nil => simp [pmOmit, pmKeys]
  | cons kv rest ih =>
    obtain ⟨k', v⟩ := kv
    rw [pmOmit_cons]
    by_cases hk : k' ∈ s
    · rw [if_pos hk, ih]
      simp only [pmKeys, List.map_cons, List.toFinset_cons]
      ext x
      simp only [Finset.mem_sdiff, Finset.mem_insert]
      constructor
      · rintro ⟨hx, hxs⟩
        exact ⟨Or.inr hx, hxs⟩
      · rintro ⟨hx | hx, hxs⟩
        · subst hx; exact absurd hk hxs
        · exact ⟨hx, hxs⟩
    · rw [if_neg hk]
      simp only [pmKeys, List.map_cons, List.toFinset_cons] at ih ⊢
      rw [ih]
      ext x
      simp only [Finset.mem_sdiff, Finset.mem_insert]
      constructor
      · rintro (hx | ⟨hx, hxs⟩)
        · subst hx; exact ⟨Or.inl rfl, hk⟩
        · exact ⟨Or.inr hx, hxs⟩
      · rintro ⟨hx | hx, hxs⟩
        · exact Or.inl hx
        · exact Or.inr ⟨hx, hxs⟩

theorem pmLookup_mapVals {α β : Type} (f : α → β) (m : PM α) (k : String) :
    pmLookup (pmMapVals f m) k = (pmLookup m k).map f := by
  induction m with
  | nil => simp [pmLookup, pmMapVals]
  | cons kv rest ih =>
    obtain ⟨k', v⟩ := kv
    by_cases h : k' = k
    · simp [pmLookup, pmMapVals, h]
    · show pmLookup ((k', f v) :: pmMapVals f rest) k =
        Option.map f (pmLookup ((k', v) :: rest) k)
      simp [pmLookup, h, ih]

theorem pmKeys_mapVals {α β : Type} (f : α → β) (m : PM α) :
    pmKeys (pmMapVals f m) = pmKeys m := by
  ext x
  simp [pmKeys, pmMapVals, List.mem_map]

theorem pmKeys_walkKeys {α : Type} (f : String → String) (m : PM α) :
    pmKeys (pmWalkKeys f m) = (pmKeys m).image f := by
  induction m with
  | nil => simp [pmKeys, pmWalkKeys]
  | cons kv rest ih =>
    obtain ⟨k, v⟩ := kv
    show pmKeys ((f k, v) :: pmWalkKeys f rest) = Finset.image f (pmKeys ((k, v) :: rest))
    simp only [pmKeys, List.map_cons, List.toFinset_cons] at ih ⊢
    rw [Finset.image_insert, ← ih]

theorem disjoint_keys_not_mem {α β : Type} {m1 : PM α} {m2 : PM β} {k : String}
    (h : pmKeys m1 ∩ pmKeys m2 = ∅) (hk : k ∈ pmKeys m1) : k ∉ pmKeys m2 := by
  intro hk2
  have : k ∈ pmKeys m1 ∩ pmKeys m2 := Finset.mem_inter.mpr ⟨hk, hk2⟩
  simp [h] at this

theorem pmLookup_append_comm {α : Type} {m1 m2 : PM α}
    (h : pmKeys m1 ∩ pmKeys m2 = ∅) (k : String) :
    pmLookup (m1 ++ m2) k = pmLookup (m2 ++ m1) k := by
  rw [pmLookup_append, pmLookup_append]
  cases h1 : pmLookup m1 k with
  | none =>
    cases h2 : pmLookup m2 k <;> simp
  | some v =>
    have hk1 : k ∈ pmKeys m1 := by
      rw [← pmLookup_isSome_iff]; simp [h1]
    have hk2 : k ∉ pmKeys m2 := disjoint_keys_not_mem h hk1
    have h2 : pmLookup m2 k = none := by
      cases h2 : pmLookup m2 k with
      | none => rfl
      | some w =>
        exact absurd ((pmLookup_isSome_iff m2 k).mp (by simp [h2])) hk2
    simp [h2]

theorem tlookup_mem {V : Type} {t : List (Node × V)} {n : Node} {v : V}
    (h : tlookup t n = some v) : (n, v) ∈ t := by
  induction t with
  | nil => simp [tlookup] at h
  | cons p rest ih =>
    obtain ⟨k, w⟩ := p
    by_cases hk : k = n
    · subst hk
      simp [tlookup] at h
      simp [h]
    · simp [tlookup, hk] at h
      exact List.mem_cons_of_mem _ (ih h)

theorem tlookup_isSome_iff {V : Type} (t : List (Node × V)) (n : Node) :
    (tlookup t n).isSome = true ↔ n ∈ t.map Prod.fst := by
  induction t with
  | nil => simp [tlookup]
  | cons p rest ih =>
    obtain ⟨k, w⟩ := p
    by_cases hk : k = n
    · subst hk; simp [tlookup]
    · simp [tlookup, hk, ih, Ne.symm hk]

theorem is_const_true_iff (n : Node) :
    is_const_true n = true ↔ n = Node.inverter Node.constFalse := by
  cases n with
  | inverter m => cases m <;> simp [is_const_true]
  | constFalse => simp [is_const_true]
  | input i => simp [is_const_true]
  | latchIn l => simp [is_const_true]
  | andGate l r => simp [is_const_true]

theorem evalNode_algAnd (benv blenv : String → Bool) (a b : NodeAlgebra) :
    evalNode benv blenv (a.and b).node =
      (evalNode benv blenv a.node && evalNode benv blenv b.node) := by
  unfold NodeAlgebra.and
  by_cases h1 : a.node = Node.constFalse
  · rw [if_pos h1]; simp [h1, evalNode]
  · rw [if_neg h1]
    by_cases h2 : b.node = Node.constFalse
    · rw [if_pos h2]; simp [h2, evalNode]
    · rw [if_neg h2]
      by_cases h3 : is_const_true a.node = true
      · rw [if_pos h3]
        rw [is_const_true_iff] at h3
        simp [h3, evalNode]
      · rw [if_neg h3]
        by_cases h4 : is_const_true b.node = true
        · rw [if_pos h4]
          rw [is_const_true_iff] at h4
          simp [h4, evalNode]
        · rw [if_neg h4]
          simp [evalNode]

theorem evalNode_algInvert (benv blenv : String → Bool) (a : NodeAlgebra) :
    evalNode benv blenv a.invert.node = !(evalNode benv blenv a.node) := by
  obtain ⟨n⟩ := a
  cases n <;> simp [NodeAlgebra.invert, evalNode]

theorem runItem_key {V : Type} (alg : CallAlg V) (env lenv : String → V)
    (t : List (Node × V)) (item : BatchNode) :
    ∃ v, runItem alg env lenv t item = (keyOf item, v) :: t := by
  cases item with
  | pure n => cases n <;> exact ⟨_, rfl⟩
  | shim nw old => exact ⟨_, rfl⟩

theorem tlookup_cons {V : Type} (k : Node) (v : V) (t : List (Node × V)) (n : Node) :
    tlookup ((k, v) :: t) n = if k = n then some v else tlookup t n := rfl

theorem runStream_cons {V : Type} (alg : CallAlg V) (env lenv : String → V)
    (item : BatchNode) (rest : List BatchNode) (t : List (Node × V)) :
    runStream alg env lenv (item :: rest) t =
      runStream alg env lenv rest (runItem alg env lenv t item) := rfl

theorem runStream_keys {V : Type} (alg : CallAlg V) (env lenv : String → V) :
    ∀ (items : List BatchNode) (t : List (Node × V)) (n : Node),
      (tlookup (runStream alg env lenv items t) n).isSome = true ↔
        (n ∈ items.map keyOf ∨ (tlookup t n).isSome = true) := by
  intro items
  induction items with
  | nil => simp [runStream]
  | cons item rest ih =>
    intro t n
    rw [runStream_cons, ih]
    obtain ⟨v, hv⟩ := runItem_key alg env lenv t item
    rw [hv, tlookup_cons]
    by_cases hk : keyOf item = n
    · subst hk
      simp
    · rw [if_neg hk]
      simp only [List.map_cons, List.mem_cons]
      constructor
      · rintro (h | h)
        · exact Or.inl (Or.inr h)
        · exact Or.inr h
      · rintro (h | h)
        · rcases h with h | h
          · exact absurd h.symm hk
          · exact Or.inl h
        · exact Or.inr h

/-- Core soundness of a batch walk: over a shim-free, well-ordered stream,
interpreting with any algebra whose values carry a boolean meaning
compatible with the connectives, every table entry means exactly the
structural evaluation of its key node. -/
theorem runStream_meaning {V : Type} (alg : CallAlg V) (env lenv : String → V)
    (benv blenv : String → Bool) (mean : V → Bool)
    (hf : mean alg.falseV = false)
    (ha : ∀ a b, mean (alg.andV a b) = (mean a && mean b))
    (hn : ∀ a, mean (alg.notV a) = !(mean a))
    (he : ∀ i, mean (env i) = benv i)
    (hl : ∀ n, mean (lenv n) = blenv n)
    (ins : Finset String) (li : PM Bool) :
    ∀ (items : List BatchNode) (t : List (Node × V)) (defined : List Node),
      shimFree items = true →
      streamOK ins li defined items = true →
      (∀ p ∈ t, mean p.2 = evalNode benv blenv p.1) →
      (∀ n ∈ defined, (tlookup t n).isSome = true) →
      ∀ p ∈ runStream alg env lenv items t, mean p.2 = evalNode benv blenv p.1 := by
  intro items
  induction items with
  | nil =>
    intro t defined _ _ ht _ p hp
    exact ht p hp
  | cons item rest ih =>
    intro t defined hsf hok ht hd
    have hok1 : itemOK ins li defined item = true ∧
        streamOK ins li (keyOf item :: defined) rest = true := by
      simpa [streamOK, Bool.and_eq_true] using hok
    rw [runStream_cons]
    -- a looked-up defined operand means its structural evaluation
    have hlook : ∀ n ∈ defined, mean (tlookupD alg t n) = evalNode benv blenv n := by
      intro n hn'
      have hs := hd n hn'
      cases hv : tlookup t n with
      | none => rw [hv] at hs; simp at hs
      | some v =>
        have := ht (n, v) (tlookup_mem hv)
        simpa [tlookupD, hv] using this
    have hdef : ∀ n ∈ keyOf item :: defined,
        (tlookup (runItem alg env lenv t item) n).isSome = true := by
      obtain ⟨v, hv⟩ := runItem_key alg env lenv t item
      intro n hn'
      rw [hv, tlookup_cons]
      rcases List.mem_cons.mp hn' with h | h
      · simp [h]
      · by_cases hk : keyOf item = n
        · simp [hk]
        · simpa [hk] using hd n h
    cases item with
    | shim nw old => simp [shimFree] at hsf
    | pure n =>
      have hsf2 : shimFree rest = true := by simpa [shimFree] using hsf
      refine ih (runItem alg env lenv t (BatchNode.pure n)) (n :: defined) hsf2
        hok1.2 ?_ hdef
      intro p hp
      cases n with
      | constFalse =>
        rcases List.mem_cons.mp hp with h | h
        · subst h; simpa [evalNode] using hf
        · exact ht p h
      | input i =>
        rcases List.mem_cons.mp hp with h | h
        · subst h; simpa [evalNode] using he i
        · exact ht p h
      | latchIn l =>
        rcases List.mem_cons.mp hp with h | h
        · subst h; simpa [evalNode] using hl l
        · exact ht p h
      | andGate l r =>
        have hmem : l ∈ defined ∧ r ∈ defined := by
          simpa [itemOK, Bool.and_eq_true] using hok1.1
        rcases List.mem_cons.mp hp with h | h
        · subst h
          simp only [runItem, evalNode]
          rw [ha, hlook l hmem.1, hlook r hmem.2]
        · exact ht p h
      | inverter m =>
        have hmem : m ∈ defined := by
          simpa [itemOK] using hok1.1
        rcases List.mem_cons.mp hp with h | h
        · subst h
          simp only [runItem, evalNode]
          rw [hn, hlook m hmem]
        · exact ht p h

theorem pmLookup_mem {α : Type} {m : PM α} {k : String} {v : α}
    (h : pmLookup m k = some v) : (k, v) ∈ m := by
  induction m with
  | nil => simp [pmLookup] at h
  | cons kv rest ih =>
    obtain ⟨k', w⟩ := kv
    by_cases hk : k' = k
    · subst hk
      simp [pmLookup] at h
      simp [h]
    · simp [pmLookup, hk] at h
      exact List.mem_cons_of_mem _ (ih h)

/-- Does the stream define every node a map refers to? -/
def coversMap (items : List BatchNode) (m : PM Node) : Bool :=
  m.all (fun kv => decide (kv.2 ∈ items.map keyOf))

/-- The meaning function of the symbolic run: the boolean a produced node
evaluates to, structurally, under given boolean environments. -/
theorem symTable_meaning (c : LazyAIG) (benv : String → Bool)
    (hsf : shimFree c.iter_nodes.flatten = true)
    (hok : streamOK c.inputs c.latch2init [] c.iter_nodes.flatten = true) :
    ∀ p ∈ symTable c,
      evalNode benv (initLenv c.latch2init) p.2.node =
        evalNode benv (initLenv c.latch2init) p.1 := by
  refine runStream_meaning symAlg symEnv (symLenv c.latch2init) benv
    (initLenv c.latch2init)
    (fun v => evalNode benv (initLenv c.latch2init) v.node)
    (by simp [symAlg, evalNode])
    (fun a b => evalNode_algAnd _ _ a b)
    (fun a => evalNode_algInvert _ _ a)
    (fun i => by simp [symEnv, evalNode])
    (fun n => ?_)
    c.inputs c.latch2init c.iter_nodes.flatten [] [] hsf hok
    (by intro p hp; simp at hp) (by intro n hn; simp at hn)
  by_cases h : (pmLookup c.latch2init n).getD false
  · simp [symLenv, h, NodeAlgebra.invert, evalNode, initLenv]
  · simp only [Bool.not_eq_true] at h
    simp [symLenv, h, evalNode, initLenv]

/-- Claim C1: for every eager circuit C whose batch stream satisfies the
validity invariant of the spec (a shim-free, well-ordered stream defining
every output node), the flattening of the lifted circuit, lazy(C).aig, is
observationally equivalent to C: same input, output and latch name sets,
same latch initial values, and the same output assignment on every total
boolean input assignment. -/
theorem claim_C1_flatten_lift_roundtrip (C : AIG)
    (hsf : shimFree C.iter_nodes.flatten = true)
    (hok : streamOK C.inputs C.latch2init [] C.iter_nodes.flatten = true)
    (hcov : coversMap C.iter_nodes.flatten C.node_map = true) :
    ((lazy C).aig).inputs = C.inputs ∧
    pmKeys ((lazy C).aig).node_map = pmKeys C.node_map ∧
    pmKeys ((lazy C).aig).latch_map = pmKeys C.latch_map ∧
    ((lazy C).aig).latch2init = C.latch2init ∧
    ∀ env : String → Bool, ((lazy C).aig).outputVals env = C.outputVals env := by
  have hnm : ((lazy C).aig).node_map =
      pmMapVals (fun nd => (tlookupD symAlg (symTable (lazy C)) nd).node)
        C.node_map := rfl
  have hlm : ((lazy C).aig).latch_map =
      pmMapVals (fun nd => (tlookupD symAlg (symTable (lazy C)) nd).node)
        C.latch_map := rfl
  refine ⟨rfl, by rw [hnm, pmKeys_mapVals], by rw [hlm, pmKeys_mapVals], rfl, ?_⟩
  intro env
  funext o
  show (pmLookup ((lazy C).aig).node_map o).map
      (evalNode env (initLenv ((lazy C).aig).latch2init)) =
    (pmLookup C.node_map o).map (evalNode env (initLenv C.latch2init))
  have hli : ((lazy C).aig).latch2init = C.latch2init := rfl
  rw [hli, hnm, pmLookup_mapVals]
  cases hl : pmLookup C.node_map o with
  | none => rfl
  | some nd =>
    simp only [Option.map_some']
    have hmem : (o, nd) ∈ C.node_map := pmLookup_mem hl
    have hk : nd ∈ (C.iter_nodes.flatten).map keyOf := by
      have := List.all_eq_true.mp hcov (o, nd) hmem
      simpa using this
    have hsome : (tlookup (symTable (lazy C)) nd).isSome = true := by
      rw [symTable]
      rw [runStream_keys]
      exact Or.inl hk
    cases hv : tlookup (symTable (lazy C)) nd with
    | none => rw [hv] at hsome; simp at hsome
    | some v =>
      have hmean := symTable_meaning (lazy C) env hsf hok (nd, v) (tlookup_mem hv)
      simp only [tlookupD, hv, Option.getD_some]
      exact congrArg some hmean

/-- A concrete one-input circuit, output y bound to the negation of input x,
with a valid one-batch stream. -/
def witC1 : AIG :=
  { iter_nodes := [[BatchNode.pure (Node.input "x"),
                    BatchNode.pure (Node.inverter (Node.input "x"))]]
    inputs := {"x"}
    node_map := [("y", Node.inverter (Node.input "x"))]
    latch_map := []
    latch2init := []
    comments := [] }

/-- The assignment sending x to true and every other name to false. -/
def witEnv : String → Bool := fun s => s == "x"

theorem claim_C1_witness :
    ((lazy witC1).aig).outputVals witEnv = witC1.outputVals witEnv :=
  (claim_C1_flatten_lift_roundtrip witC1 (by decide) (by decide)
    (by decide)).2.2.2.2 witEnv

/-- Claim C5: combining NodeAlgebra values symbolically simplifies locally:
a conjunction returns the false operand when either node is the constant
false, returns the other operand when one node is the constant true
Not(Const), and builds an AndGate otherwise; inverting a value whose node is
an Inverter returns its operand, so double negation is eliminated at
construction. -/
theorem claim_C5_node_algebra_simplification (a b : NodeAlgebra) :
    (a.node = Node.constFalse → a.and b = a) ∧
    (a.node ≠ Node.constFalse → b.node = Node.constFalse → a.and b = b) ∧
    (is_const_true a.node = true → b.node ≠ Node.constFalse → a.and b = b) ∧
    (is_const_true b.node = true → a.node ≠ Node.constFalse → a.and b = a) ∧
    (a.node ≠ Node.constFalse → b.node ≠ Node.constFalse →
      is_const_true a.node = false → is_const_true b.node = false →
      a.and b = ⟨Node.andGate a.node b.node⟩) ∧
    (∀ m : Node, a.node = Node.inverter m → a.invert = ⟨m⟩) ∧
    ((∀ m : Node, a.node ≠ Node.inverter m) → a.invert.invert = a) := by
  refine ⟨?_, ?_, ?_, ?_, ?_, ?_, ?_⟩
  · intro h
    unfold NodeAlgebra.and
    rw [if_pos h]
  · intro h1 h2
    unfold NodeAlgebra.and
    rw [if_neg h1, if_pos h2]
  · intro h3 h2
    have ha := (is_const_true_iff a.node).mp h3
    unfold NodeAlgebra.and
    rw [if_neg (by rw [ha]; intro hcon; cases hcon), if_neg h2, if_pos h3]
  · intro h4 h1
    have hb := (is_const_true_iff b.node).mp h4
    have hbne : b.node ≠ Node.constFalse := by rw [hb]; intro hcon; cases hcon
    unfold NodeAlgebra.and
    rw [if_neg h1, if_neg hbne]
    by_cases h3 : is_const_true a.node = true
    · rw [if_pos h3]
      have ha := (is_const_true_iff a.node).mp h3
      obtain ⟨an⟩ := a
      obtain ⟨bn⟩ := b
      simp only at ha hb
      rw [ha, hb]
    · rw [if_neg h3, if_pos h4]
  · intro h1 h2 h3 h4
    unfold NodeAlgebra.and
    rw [if_neg h1, if_neg h2, if_neg (by simp [h3]), if_neg (by simp [h4])]
  · intro m h
    obtain ⟨n⟩ := a
    simp only at h
    subst h
    rfl
  · intro h
    obtain ⟨n⟩ := a
    cases n with
    | inverter m => exact absurd rfl (h m)
    | constFalse => rfl
    | input i => rfl
    | latchIn l => rfl
    | andGate l r => rfl

theorem claim_C5_witness :
    NodeAlgebra.and ⟨Node.constFalse⟩ ⟨Node.input "p"⟩ = ⟨Node.constFalse⟩ ∧
    NodeAlgebra.and ⟨Node.inverter Node.constFalse⟩ ⟨Node.input "p"⟩ =
      ⟨Node.input "p"⟩ :=
  ⟨(claim_C5_node_algebra_simplification ⟨Node.constFalse⟩ ⟨Node.input "p"⟩).1 rfl,
   (claim_C5_node_algebra_simplification ⟨Node.inverter Node.constFalse⟩
      ⟨Node.input "p"⟩).2.2.1 rfl (by decide)⟩

/-- A concrete single-latch lazy circuit with input y and output z, the
output looped back through the latch st (initial value true), as the unroll
scenario of the spec describes. -/
def exLatchCirc : LazyAIG :=
  { iter_nodes := [[BatchNode.pure (Node.input "y"),
                    BatchNode.pure (Node.latchIn "st"),
                    BatchNode.pure (Node.andGate (Node.input "y") (Node.latchIn "st"))]]
    inputs := {"y"}
    latch2init := [("st", true)]
    node_map := [("z", Node.andGate (Node.input "y") (Node.latchIn "st"))]
    latch_map := [("st", Node.andGate (Node.input "y") (Node.latchIn "st"))]
    comments := [] }

/-- Claim C6, evaluated at the failing input: calling cutlatches on a lazy
circuit does not return the described transformed circuit; the method body
of LazyAIG.cutlatches in aiger/lazy.py raises NotImplementedError. -/
theorem claim_C6_cutlatches_raises :
    exLatchCirc.cutlatches none none = Except.error PyErr.notImplementedError :=
  rfl

/-- Claim C7, evaluated at the failing input: on the single-latch lazy
circuit, unroll(2) does not return the described unrolled circuit, with or
without only_last_outputs; the method body of LazyAIG.unroll in
aiger/lazy.py raises NotImplementedError. -/
theorem claim_C7_unroll_raises :
    exLatchCirc.unroll 2 true true false = Except.error PyErr.notImplementedError ∧
    exLatchCirc.unroll 2 true true true = Except.error PyErr.notImplementedError :=
  ⟨rfl, rfl⟩

/-- Claim C9: every operation intentionally left unimplemented on the lazy
representation, namely cutlatches, loopback and unroll of LazyAIG, fails
explicitly with NotImplementedError on every circuit and argument list,
a signal distinct from the AssertionError of a namespace-collision
violation, and never returns a circuit. -/
theorem claim_C9_unimplemented_signal (c : LazyAIG)
    (ls : Option (List String)) (rn : Option (String → String))
    (ws : List Wiring) (h : Nat) (i ol olo : Bool) :
    c.cutlatches ls rn = Except.error PyErr.notImplementedError ∧
    c.loopback ws = Except.error PyErr.notImplementedError ∧
    c.unroll h i ol olo = Except.error PyErr.notImplementedError ∧
    PyErr.notImplementedError ≠ PyErr.assertionError :=
  ⟨rfl, rfl, rfl, by decide⟩

theorem claim_C9_witness :
    exLatchCirc.loopback [] = Except.error PyErr.notImplementedError :=
  (claim_C9_unimplemented_signal exLatchCirc none none [] 0 true true true).2.1

theorem pmLookup_append_left {α : Type} {m1 : PM α} (m2 : PM α) {k : String}
    (h : k ∈ pmKeys m1) : pmLookup (m1 ++ m2) k = pmLookup m1 k := by
  rw [pmLookup_append]
  cases h1 : pmLookup m1 k with
  | none =>
    rw [← pmLookup_isSome_iff, h1] at h
    simp at h
  | some v => rfl

theorem pmLookup_append_right {α : Type} {m1 : PM α} (m2 : PM α) {k : String}
    (h : k ∉ pmKeys m1) : pmLookup (m1 ++ m2) k = pmLookup m2 k := by
  rw [pmLookup_append]
  cases h1 : pmLookup m1 k with
  | none => rfl
  | some v =>
    exact absurd ((pmLookup_isSome_iff m1 k).mp (by simp [h1])) h

/-- Claim C2: under the namespace preconditions (and the circuit invariant
that the latch name set matches the domain of the initial-value map),
sequential composition succeeds and the result has inputs
A.inputs ∪ (B.inputs − interface), outputs B.outputs ∪ (A.outputs −
interface) with every passed-through output still bound to the node A holds
for it, and latches and latch initial values the disjoint union of both
operands. -/
theorem claim_C2_rshift_interface (A B : LazyAIG)
    (hout : (A.outputs \ (A.outputs ∩ B.inputs)) ∩ B.outputs = ∅)
    (hlat : A.latches ∩ B.latches = ∅)
    (hcohA : pmKeys A.latch_map = pmKeys A.latch2init)
    (hcohB : pmKeys B.latch_map = pmKeys B.latch2init) :
    A.rshift B = Except.ok (A.rshiftRaw B) ∧
    (A.rshiftRaw B).inputs = A.inputs ∪ (B.inputs \ (A.outputs ∩ B.inputs)) ∧
    (A.rshiftRaw B).outputs = B.outputs ∪ (A.outputs \ (A.outputs ∩ B.inputs)) ∧
    (∀ k ∈ A.outputs \ (A.outputs ∩ B.inputs),
      pmLookup (A.rshiftRaw B).node_map k = pmLookup A.node_map k) ∧
    (A.rshiftRaw B).latches = A.latches ∪ B.latches ∧
    pmKeys (A.rshiftRaw B).latch2init = pmKeys A.latch2init ∪ pmKeys B.latch2init ∧
    (∀ k ∈ pmKeys A.latch2init,
      pmLookup (A.rshiftRaw B).latch2init k = pmLookup A.latch2init k) ∧
    (∀ k ∈ pmKeys B.latch2init,
      pmLookup (A.rshiftRaw B).latch2init k = pmLookup B.latch2init k) := by
  have hnm : (A.rshiftRaw B).node_map =
      pmOmit A.node_map (A.outputs ∩ B.inputs) ++ B.node_map := rfl
  have hl2i : (A.rshiftRaw B).latch2init = B.latch2init ++ A.latch2init := rfl
  refine ⟨?_, rfl, ?_, ?_, ?_, ?_, ?_, ?_⟩
  · unfold LazyAIG.rshift
    rw [if_neg (not_not_intro hout), if_neg (not_not_intro hlat)]
  · show pmKeys (A.rshiftRaw B).node_map = _
    rw [hnm, pmKeys_append, pmKeys_omit]
    exact Finset.union_comm _ _
  · intro k hk
    rw [Finset.mem_sdiff] at hk
    rw [hnm, pmLookup_append_left]
    · rw [pmLookup_omit, if_neg hk.2]
    · rw [pmKeys_omit, Finset.mem_sdiff]
      exact hk
  · show pmKeys (A.rshiftRaw B).latch_map = _
    have : (A.rshiftRaw B).latch_map = B.latch_map ++ A.latch_map := rfl
    rw [this, pmKeys_append]
    exact Finset.union_comm _ _
  · rw [hl2i, pmKeys_append]
    exact Finset.union_comm _ _
  · intro k hk
    rw [hl2i, pmLookup_append_right]
    rw [← hcohB]
    rw [← hcohA] at hk
    exact disjoint_keys_not_mem hlat hk
  · intro k hk
    rw [hl2i, pmLookup_append_left _ hk]

theorem forall2_map_self {α : Type} (f : α → α) (R : α → α → Prop)
    (h : ∀ x, R x (f x)) : ∀ l : List α, List.Forall₂ R l (l.map f) := by
  intro l
  induction l with
  | nil => simp
  | cons a rest ih => exact List.Forall₂.cons (h a) ih

/-- A tiny upstream circuit: input x, output m bound to that input. -/
def witA : LazyAIG :=
  { iter_nodes := [[BatchNode.pure (Node.input "x")]]
    inputs := {"x"}
    latch2init := []
    node_map := [("m", Node.input "x")]
    latch_map := []
    comments := [] }

/-- A tiny downstream circuit: input m, output o bound to that input. -/
def witB : LazyAIG :=
  { iter_nodes := [[BatchNode.pure (Node.input "m")]]
    inputs := {"m"}
    latch2init := []
    node_map := [("o", Node.input "m")]
    latch_map := []
    comments := [] }

theorem claim_C2_witness :
    witA.rshift witB = Except.ok (witA.rshiftRaw witB) ∧
    (witA.rshiftRaw witB).outputs =
      witB.outputs ∪ (witA.outputs \ (witA.outputs ∩ witB.inputs)) :=
  ⟨(claim_C2_rshift_interface witA witB (by decide) (by decide) rfl rfl).1,
   (claim_C2_rshift_interface witA witB (by decide) (by decide) rfl rfl).2.2.1⟩

/-- Claim C3: with the preconditions holding, the batch stream of A >> B is
exactly the batches of A followed by the batches of B in which every Input
item named in the interface has been replaced by a Shim from that Input node
to the node A holds for that output name, every other item of B passing
through unchanged. -/
theorem claim_C3_rshift_stream (A B : LazyAIG)
    (hout : (A.outputs \ (A.outputs ∩ B.inputs)) ∩ B.outputs = ∅)
    (hlat : A.latches ∩ B.latches = ∅) :
    A.rshift B = Except.ok (A.rshiftRaw B) ∧
    (A.rshiftRaw B).iter_nodes.take A.iter_nodes.length = A.iter_nodes ∧
    (A.rshiftRaw B).iter_nodes.length =
      A.iter_nodes.length + B.iter_nodes.length ∧
    List.Forall₂ (fun bb rb : List BatchNode =>
        List.Forall₂ (fun item item' : BatchNode =>
          (∀ n : String, item = BatchNode.pure (Node.input n) →
            n ∈ A.outputs ∩ B.inputs →
            ∃ nd : Node, pmLookup A.node_map n = some nd ∧
              item' = BatchNode.shim (Node.input n) nd) ∧
          (∀ n : String, item = BatchNode.pure (Node.input n) →
            n ∉ A.outputs ∩ B.inputs → item' = item) ∧
          ((∀ n : String, item ≠ BatchNode.pure (Node.input n)) → item' = item))
          bb rb)
      B.iter_nodes ((A.rshiftRaw B).iter_nodes.drop A.iter_nodes.length) := by
  have hstream : (A.rshiftRaw B).iter_nodes =
      A.iter_nodes ++
        B.iter_nodes.map (addShims (A.outputs ∩ B.inputs) A.node_map) := rfl
  refine ⟨?_, ?_, ?_, ?_⟩
  · unfold LazyAIG.rshift
    rw [if_neg (not_not_intro hout), if_neg (not_not_intro hlat)]
  · rw [hstream, List.take_left]
  · rw [hstream, List.length_append, List.length_map]
  · rw [hstream, List.drop_left]
    refine forall2_map_self _ _ ?_ B.iter_nodes
    intro batch
    refine forall2_map_self _ _ ?_ batch
    intro item
    cases item with
    | shim a b =>
      refine ⟨?_, ?_, fun _ => rfl⟩
      · intro n heq
        cases heq
      · intro n heq
        cases heq
    | pure nd =>
      cases nd with
      | input n' =>
        refine ⟨?_, ?_, ?_⟩
        · intro n heq hmem
          have hn : n' = n := by
            cases heq
            rfl
          subst hn
          have : (pmLookup A.node_map n').isSome = true := by
            rw [pmLookup_isSome_iff]
            exact (Finset.mem_inter.mp hmem).1
          cases hv : pmLookup A.node_map n' with
          | none => rw [hv] at this; simp at this
          | some nd0 =>
            refine ⟨nd0, rfl, ?_⟩
            show (if n' ∈ A.outputs ∩ B.inputs then
                BatchNode.shim (Node.input n') ((pmLookup A.node_map n').getD Node.constFalse)
              else BatchNode.pure (Node.input n')) = BatchNode.shim (Node.input n') nd0
            rw [if_pos hmem, hv]
            rfl
        · intro n heq hmem
          have hn : n' = n := by
            cases heq
            rfl
          subst hn
          show (if n' ∈ A.outputs ∩ B.inputs then
              BatchNode.shim (Node.input n') ((pmLookup A.node_map n').getD Node.constFalse)
            else BatchNode.pure (Node.input n')) = BatchNode.pure (Node.input n')
          rw [if_neg hmem]
        · intro h
          exact absurd rfl (h n')
      | constFalse =>
        refine ⟨?_, ?_, fun _ => rfl⟩ <;> intro n heq <;> cases heq
      | latchIn l =>
        refine ⟨?_, ?_, fun _ => rfl⟩ <;> intro n heq <;> cases heq
      | andGate l r =>
        refine ⟨?_, ?_, fun _ => rfl⟩ <;> intro n heq <;> cases heq
      | inverter m =>
        refine ⟨?_, ?_, fun _ => rfl⟩ <;> intro n heq <;> cases heq

theorem claim_C3_witness :
    witA.rshift witB = Except.ok (witA.rshiftRaw witB) ∧
    (witA.rshiftRaw witB).iter_nodes.take witA.iter_nodes.length =
      witA.iter_nodes :=
  ⟨(claim_C3_rshift_stream witA witB (by decide) (by decide)).1,
   (claim_C3_rshift_stream witA witB (by decide) (by decide)).2.1⟩

theorem rshift_eq_ite (A B : LazyAIG) :
    A.rshift B =
      if (A.outputs \ (A.outputs ∩ B.inputs)) ∩ B.outputs = ∅ ∧
          A.latches ∩ B.latches = ∅ then
        Except.ok (A.rshiftRaw B)
      else Except.error PyErr.assertionError := by
  unfold LazyAIG.rshift
  by_cases h1 : (A.outputs \ (A.outputs ∩ B.inputs)) ∩ B.outputs = ∅
  · by_cases h2 : A.latches ∩ B.latches = ∅
    · rw [if_neg (not_not_intro h1), if_neg (not_not_intro h2),
        if_pos ⟨h1, h2⟩]
    · rw [if_neg (not_not_intro h1), if_pos h2,
        if_neg (fun hc => h2 hc.2)]
  · rw [if_pos h1, if_neg (fun hc => h1 hc.1)]

theorem or_eq_ite (A B : LazyAIG) :
    A.or B =
      if A.latches ∩ B.latches = ∅ ∧ A.outputs ∩ B.outputs = ∅ then
        Except.ok (A.orRaw B)
      else Except.error PyErr.assertionError := by
  unfold LazyAIG.or
  by_cases h1 : A.latches ∩ B.latches = ∅
  · by_cases h2 : A.outputs ∩ B.outputs = ∅
    · rw [if_neg (not_not_intro h1), if_neg (not_not_intro h2),
        if_pos ⟨h1, h2⟩]
    · rw [if_neg (not_not_intro h1), if_pos h2,
        if_neg (fun hc => h2 hc.2)]
  · rw [if_pos h1, if_neg (fun hc => h1 hc.1)]

/-- Claim C4: a namespace-collision precondition violation makes the
composition call itself return AssertionError, decided from the namespace
sets alone (replacing either batch stream never changes the outcome, so the
failure cannot be deferred to stream consumption, flattening or
evaluation); conversely, when the preconditions hold, the call returns a
circuit without raising. -/
theorem claim_C4_collision_raises (A B : LazyAIG) (s1 s2 : List (List BatchNode)) :
    (¬ ((A.outputs \ (A.outputs ∩ B.inputs)) ∩ B.outputs = ∅ ∧
        A.latches ∩ B.latches = ∅) →
      A.rshift B = Except.error PyErr.assertionError) ∧
    (((A.outputs \ (A.outputs ∩ B.inputs)) ∩ B.outputs = ∅ ∧
        A.latches ∩ B.latches = ∅) →
      A.rshift B = Except.ok (A.rshiftRaw B)) ∧
    (¬ (A.latches ∩ B.latches = ∅ ∧ A.outputs ∩ B.outputs = ∅) →
      A.or B = Except.error PyErr.assertionError) ∧
    ((A.latches ∩ B.latches = ∅ ∧ A.outputs ∩ B.outputs = ∅) →
      A.or B = Except.ok (A.orRaw B)) ∧
    (({ A with iter_nodes := s1 } : LazyAIG).rshift { B with iter_nodes := s2 }
        = Except.error PyErr.assertionError ↔
      A.rshift B = Except.error PyErr.assertionError) ∧
    (({ A with iter_nodes := s1 } : LazyAIG).or { B with iter_nodes := s2 }
        = Except.error PyErr.assertionError ↔
      A.or B = Except.error PyErr.assertionError) := by
  refine ⟨?_, ?_, ?_, ?_, ?_, ?_⟩
  · intro h
    rw [rshift_eq_ite, if_neg h]
  · intro h
    rw [rshift_eq_ite, if_pos h]
  · intro h
    rw [or_eq_ite, if_neg h]
  · intro h
    rw [or_eq_ite, if_pos h]
  · have e1 : ({ A with iter_nodes := s1 } : LazyAIG).outputs = A.outputs := rfl
    have e2 : ({ B with iter_nodes := s2 } : LazyAIG).inputs = B.inputs := rfl
    have e3 : ({ B with iter_nodes := s2 } : LazyAIG).outputs = B.outputs := rfl
    have e4 : ({ A with iter_nodes := s1 } : LazyAIG).latches = A.latches := rfl
    have e5 : ({ B with iter_nodes := s2 } : LazyAIG).latches = B.latches := rfl
    rw [rshift_eq_ite, rshift_eq_ite, e1, e2, e3, e4, e5]
    by_cases h : (A.outputs \ (A.outputs ∩ B.inputs)) ∩ B.outputs = ∅ ∧
        A.latches ∩ B.latches = ∅
    · rw [if_pos h, if_pos h]
      simp
    · rw [if_neg h, if_neg h]
  · have e1 : ({ A with iter_nodes := s1 } : LazyAIG).outputs = A.outputs := rfl
    have e3 : ({ B with iter_nodes := s2 } : LazyAIG).outputs = B.outputs := rfl
    have e4 : ({ A with iter_nodes := s1 } : LazyAIG).latches = A.latches := rfl
    have e5 : ({ B with iter_nodes := s2 } : LazyAIG).latches = B.latches := rfl
    rw [or_eq_ite, or_eq_ite, e1, e3, e4, e5]
    by_cases h : A.latches ∩ B.latches = ∅ ∧ A.outputs ∩ B.outputs = ∅
    · rw [if_pos h, if_pos h]
      simp
    · rw [if_neg h, if_neg h]

/-- A circuit colliding with witA: it shares the latch name st with
exLatchCirc and the output name m with witA. -/
def witClash : LazyAIG :=
  { iter_nodes := []
    inputs := ∅
    latch2init := [("st", false)]
    node_map := [("m", Node.constFalse)]
    latch_map := [("st", Node.constFalse)]
    comments := [] }

theorem claim_C4_witness :
    witA.rshift witB = Except.ok (witA.rshiftRaw witB) ∧
    exLatchCirc.or witClash = Except.error PyErr.assertionError :=
  ⟨(claim_C4_collision_raises witA witB [] []).2.1 (by decide),
   (claim_C4_collision_raises exLatchCirc witClash [] []).2.2.1 (by decide)⟩

/-- Claim C10: lifting, sequential composition, parallel composition and
relabeling (input, output and latch kinds) all preserve the invariant that
the key set of latch_map equals the key set of latch2init, whenever their
operands satisfy it. -/
theorem claim_C10_latch_coherence (C : AIG) (A B c R : LazyAIG) (m : PM String)
    (hC : pmKeys C.latch_map = pmKeys C.latch2init)
    (hA : pmKeys A.latch_map = pmKeys A.latch2init)
    (hB : pmKeys B.latch_map = pmKeys B.latch2init)
    (hc : pmKeys c.latch_map = pmKeys c.latch2init) :
    pmKeys (lazy C).latch_map = pmKeys (lazy C).latch2init ∧
    (A.rshift B = Except.ok R → pmKeys R.latch_map = pmKeys R.latch2init) ∧
    (A.or B = Except.ok R → pmKeys R.latch_map = pmKeys R.latch2init) ∧
    (c.getitemInputs m = Except.ok R →
      pmKeys R.latch_map = pmKeys R.latch2init) ∧
    pmKeys (c.getitemOutputs m).latch_map =
      pmKeys (c.getitemOutputs m).latch2init ∧
    pmKeys (c.getitemLatches m).latch_map =
      pmKeys (c.getitemLatches m).latch2init := by
  refine ⟨hC, ?_, ?_, ?_, hc, ?_⟩
  · intro h
    rw [rshift_eq_ite] at h
    by_cases hp : (A.outputs \ (A.outputs ∩ B.inputs)) ∩ B.outputs = ∅ ∧
        A.latches ∩ B.latches = ∅
    · rw [if_pos hp] at h
      cases h
      show pmKeys (B.latch_map ++ A.latch_map) = pmKeys (B.latch2init ++ A.latch2init)
      rw [pmKeys_append, pmKeys_append, hA, hB]
    · rw [if_neg hp] at h
      cases h
  · intro h
    rw [or_eq_ite] at h
    by_cases hp : A.latches ∩ B.latches = ∅ ∧ A.outputs ∩ B.outputs = ∅
    · rw [if_pos hp] at h
      cases h
      show pmKeys (B.latch_map ++ A.latch_map) = pmKeys (B.latch2init ++ A.latch2init)
      rw [pmKeys_append, pmKeys_append, hA, hB]
    · rw [if_neg hp] at h
      cases h
  · intro h
    unfold LazyAIG.getitemInputs at h
    rw [rshift_eq_ite] at h
    by_cases hp : ((lazy (tee (m.map (fun kv => (kv.2, [kv.1]))))).outputs \
          ((lazy (tee (m.map (fun kv => (kv.2, [kv.1]))))).outputs ∩ c.inputs)) ∩
          c.outputs = ∅ ∧
        (lazy (tee (m.map (fun kv => (kv.2, [kv.1]))))).latches ∩ c.latches = ∅
    · rw [if_pos hp] at h
      cases h
      show pmKeys (c.latch_map ++ ([] : PM Node)) =
        pmKeys (c.latch2init ++ ([] : PM Bool))
      rw [List.append_nil, List.append_nil, hc]
    · rw [if_neg hp] at h
      cases h
  · show pmKeys (pmWalkKeys (relabelFn m) c.latch_map) =
      pmKeys (pmWalkKeys (relabelFn m) c.latch2init)
    rw [pmKeys_walkKeys, pmKeys_walkKeys, hc]

theorem claim_C10_witness :
    pmKeys (exLatchCirc.getitemLatches [("st", "st2")]).latch_map =
      pmKeys (exLatchCirc.getitemLatches [("st", "st2")]).latch2init :=
  (claim_C10_latch_coherence witC1 exLatchCirc exLatchCirc exLatchCirc
    exLatchCirc [("st", "st2")] (by decide) (by decide) (by decide)
    (by decide)).2.2.2.2.2

theorem seenAfter_sub {seen : List Node} (n : Node) :
    ∀ x ∈ seen, x ∈ seenAfter seen n := by
  intro x hx
  cases n <;> simp [seenAfter, hx]

theorem seenAfter_cases {seen : List Node} {n x : Node}
    (h : x ∈ seenAfter seen n) : x = n ∨ x ∈ seen := by
  cases n <;> simp [seenAfter] at h <;> tauto

theorem shimFree_append : ∀ s1 s2 : List BatchNode,
    shimFree (s1 ++ s2) = (shimFree s1 && shimFree s2) := by
  intro s1
  induction s1 with
  | nil => intro s2; simp [shimFree]
  | cons i t ih =>
    intro s2
    cases i with
    | pure n => simp [shimFree, ih]
    | shim a b => simp [shimFree]

theorem itemOK_mono {ins ins' : Finset String} {li li' : PM Bool}
    {d d' : List Node}
    (hins : ins ⊆ ins')
    (hli : ∀ n, (pmLookup li n).isSome = true → (pmLookup li' n).isSome = true)
    (hd : ∀ x ∈ d, x ∈ d') :
    ∀ item, itemOK ins li d item = true → itemOK ins' li' d' item = true := by
  intro item h
  cases item with
  | shim a b =>
    have hb : b ∈ d := by simpa [itemOK] using h
    simpa [itemOK] using hd b hb
  | pure n =>
    cases n with
    | constFalse => simp [itemOK]
    | input i =>
      have hi : i ∈ ins := by simpa [itemOK] using h
      simpa [itemOK] using hins hi
    | latchIn l => exact hli l h
    | andGate l r =>
      have hlr : l ∈ d ∧ r ∈ d := by
        simpa [itemOK, Bool.and_eq_true] using h
      simp only [itemOK, Bool.and_eq_true]
      exact ⟨by simpa using hd l hlr.1, by simpa using hd r hlr.2⟩
    | inverter m =>
      have hm : m ∈ d := by simpa [itemOK] using h
      simpa [itemOK] using hd m hm

theorem streamOK_mono {ins ins' : Finset String} {li li' : PM Bool}
    (hins : ins ⊆ ins')
    (hli : ∀ n, (pmLookup li n).isSome = true → (pmLookup li' n).isSome = true) :
    ∀ (items : List BatchNode) (d d' : List Node),
      (∀ x ∈ d, x ∈ d') →
      streamOK ins li d items = true → streamOK ins' li' d' items = true := by
  intro items
  induction items with
  | nil => intro d d' _ _; rfl
  | cons i t ih =>
    intro d d' hd h
    have h' : itemOK ins li d i = true ∧ streamOK ins li (keyOf i :: d) t = true := by
      simpa [streamOK, Bool.and_eq_true] using h
    simp only [streamOK, Bool.and_eq_true]
    refine ⟨itemOK_mono hins hli hd i h'.1, ih (keyOf i :: d) (keyOf i :: d') ?_ h'.2⟩
    intro x hx
    rcases List.mem_cons.mp hx with hx | hx
    · exact hx ▸ List.mem_cons_self _ _
    · exact List.mem_cons_of_mem _ (hd x hx)

theorem streamOK_append (ins : Finset String) (li : PM Bool) :
    ∀ (s1 s2 : List BatchNode) (d : List Node),
      streamOK ins li d (s1 ++ s2) = true ↔
        (streamOK ins li d s1 = true ∧
         streamOK ins li (s1.reverse.map keyOf ++ d) s2 = true) := by
  intro s1
  induction s1 with
  | nil => intro s2 d; simp [streamOK]
  | cons i t ih =>
    intro s2 d
    have hrw : (i :: t).reverse.map keyOf ++ d =
        t.reverse.map keyOf ++ (keyOf i :: d) := by
      simp [List.reverse_cons, List.map_append, List.append_assoc]
    constructor
    · intro h
      have h1 : itemOK ins li d i = true ∧
          streamOK ins li (keyOf i :: d) (t ++ s2) = true := by
        simpa [streamOK, Bool.and_eq_true] using h
      have h2 := (ih s2 (keyOf i :: d)).mp h1.2
      refine ⟨?_, ?_⟩
      · simp only [streamOK, Bool.and_eq_true]
        exact ⟨h1.1, h2.1⟩
      · rw [hrw]
        exact h2.2
    · rintro ⟨hA, hB⟩
      have hA' : itemOK ins li d i = true ∧
          streamOK ins li (keyOf i :: d) t = true := by
        simpa [streamOK, Bool.and_eq_true] using hA
      rw [hrw] at hB
      have hall := (ih s2 (keyOf i :: d)).mpr ⟨hA'.2, hB⟩
      simp only [List.cons_append, streamOK, Bool.and_eq_true]
      exact ⟨hA'.1, hall⟩

theorem filter_seen_append : ∀ (l1 l2 : List BatchNode) (seen : List Node),
    filter_seen seen (l1 ++ l2) =
      ((filter_seen seen l1).1 ++ (filter_seen (filter_seen seen l1).2 l2).1,
       (filter_seen (filter_seen seen l1).2 l2).2) := by
  intro l1
  induction l1 with
  | nil => intro l2 seen; simp [filter_seen]
  | cons i t ih =>
    intro l2 seen
    cases i with
    | pure n =>
      by_cases hn : n ∈ seen
      · simp only [List.cons_append, filter_seen, if_pos hn]
        exact ih l2 seen
      · simp only [List.cons_append, filter_seen, if_neg hn]
        rw [show List.append t l2 = t ++ l2 from rfl, ih l2 (seenAfter seen n)]
    | shim a b =>
      simp only [List.cons_append, filter_seen]
      rw [show List.append t l2 = t ++ l2 from rfl, ih l2 seen]

theorem filterSeenBatches_flatten : ∀ (bs : List (List BatchNode)) (seen : List Node),
    (filterSeenBatches seen bs).flatten = (filter_seen seen bs.flatten).1 := by
  intro bs
  induction bs with
  | nil => intro seen; simp [filterSeenBatches, filter_seen]
  | cons b rest ih =>
    intro seen
    show (filter_seen seen b).1 ++ (filterSeenBatches (filter_seen seen b).2 rest).flatten =
      (filter_seen seen (b ++ rest.flatten)).1
    rw [ih, filter_seen_append]

theorem filter_seen_keys (n : Node) : ∀ (items : List BatchNode) (seen : List Node),
    (n ∈ ((filter_seen seen items).1.map keyOf) ∨ n ∈ seen) ↔
      (n ∈ items.map keyOf ∨ n ∈ seen) := by
  intro items
  induction items with
  | nil => intro seen; exact Iff.rfl
  | cons i t ih =>
    intro seen
    cases i with
    | pure m =>
      by_cases hm : m ∈ seen
      · rw [show filter_seen seen (BatchNode.pure m :: t) = filter_seen seen t from
          by simp [filter_seen, hm]]
        rw [ih seen]
        simp only [List.map_cons, List.mem_cons, keyOf]
        constructor
        · rintro (h | h)
          · exact Or.inl (Or.inr h)
          · exact Or.inr h
        · rintro (h | h)
          · rcases h with h | h
            · exact Or.inr (h ▸ hm)
            · exact Or.inl h
          · exact Or.inr h
      · rw [show filter_seen seen (BatchNode.pure m :: t) =
            (BatchNode.pure m :: (filter_seen (seenAfter seen m) t).1,
             (filter_seen (seenAfter seen m) t).2) from by simp [filter_seen, hm]]
        have H := ih (seenAfter seen m)
        simp only [List.map_cons, List.mem_cons, keyOf] at H ⊢
        constructor
        · rintro (⟨h | h⟩ | h)
          · exact Or.inl (Or.inl h)
          · rcases H.mp (Or.inl h) with h2 | h2
            · exact Or.inl (Or.inr h2)
            · rcases seenAfter_cases h2 with h3 | h3
              · exact Or.inl (Or.inl h3)
              · exact Or.inr h3
          · exact Or.inr h
        · rintro (⟨h | h⟩ | h)
          · exact Or.inl (Or.inl h)
          · rcases H.mpr (Or.inl h) with h2 | h2
            · exact Or.inl (Or.inr h2)
            · rcases seenAfter_cases h2 with h3 | h3
              · exact Or.inl (Or.inl h3)
              · exact Or.inr h3
          · exact Or.inr h
    | shim a b =>
      rw [show filter_seen seen (BatchNode.shim a b :: t) =
          (BatchNode.shim a b :: (filter_seen seen t).1,
           (filter_seen seen t).2) from by simp [filter_seen]]
      have H := ih seen
      simp only [List.map_cons, List.mem_cons, keyOf] at H ⊢
      constructor
      · rintro (⟨h | h⟩ | h)
        · exact Or.inl (Or.inl h)
        · rcases H.mp (Or.inl h) with h2 | h2
          · exact Or.inl (Or.inr h2)
          · exact Or.inr h2
        · exact Or.inr h
      · rintro (⟨h | h⟩ | h)
        · exact Or.inl (Or.inl h)
        · rcases H.mpr (Or.inl h) with h2 | h2
          · exact Or.inl (Or.inr h2)
          · exact Or.inr h2
        · exact Or.inr h

theorem shimFree_filter : ∀ (items : List BatchNode) (seen : List Node),
    shimFree items = true → shimFree (filter_seen seen items).1 = true := by
  intro items
  induction items with
  | nil => intro seen _; rfl
  | cons i t ih =>
    intro seen h
    cases i with
    | pure n =>
      have ht : shimFree t = true := by simpa [shimFree] using h
      by_cases hn : n ∈ seen
      · rw [show filter_seen seen (BatchNode.pure n :: t) = filter_seen seen t from
          by simp [filter_seen, hn]]
        exact ih seen ht
      · rw [show filter_seen seen (BatchNode.pure n :: t) =
            (BatchNode.pure n :: (filter_seen (seenAfter seen n) t).1,
             (filter_seen (seenAfter seen n) t).2) from by simp [filter_seen, hn]]
        show shimFree (BatchNode.pure n :: (filter_seen (seenAfter seen n) t).1) = true
        simpa [shimFree] using ih (seenAfter seen n) ht
    | shim a b => simp [shimFree] at h

theorem filter_streamOK (ins : Finset String) (li : PM Bool) :
    ∀ (items : List BatchNode) (seen d : List Node),
      streamOK ins li d items = true → (∀ x ∈ seen, x ∈ d) →
      streamOK ins li d (filter_seen seen items).1 = true := by
  intro items
  induction items with
  | nil => intro seen d _ _; rfl
  | cons i t ih =>
    intro seen d h hseen
    have h' : itemOK ins li d i = true ∧ streamOK ins li (keyOf i :: d) t = true := by
      simpa [streamOK, Bool.and_eq_true] using h
    cases i with
    | pure n =>
      by_cases hn : n ∈ seen
      · rw [show filter_seen seen (BatchNode.pure n :: t) = filter_seen seen t from
          by simp [filter_seen, hn]]
        have ht : streamOK ins li d t = true := by
          refine streamOK_mono (le_refl ins) (fun _ hx => hx) t (keyOf (BatchNode.pure n) :: d) d ?_ h'.2
          intro x hx
          rcases List.mem_cons.mp hx with hx | hx
          · exact hx ▸ hseen n hn
          · exact hx
        exact ih seen d ht hseen
      · rw [show filter_seen seen (BatchNode.pure n :: t) =
            (BatchNode.pure n :: (filter_seen (seenAfter seen n) t).1,
             (filter_seen (seenAfter seen n) t).2) from by simp [filter_seen, hn]]
        show streamOK ins li d (BatchNode.pure n :: (filter_seen (seenAfter seen n) t).1) = true
        simp only [streamOK, Bool.and_eq_true]
        refine ⟨h'.1, ih (seenAfter seen n) (keyOf (BatchNode.pure n) :: d) h'.2 ?_⟩
        intro x hx
        rcases seenAfter_cases hx with hx | hx
        · exact hx ▸ List.mem_cons_self _ _
        · exact List.mem_cons_of_mem _ (hseen x hx)
    | shim a b =>
      rw [show filter_seen seen (BatchNode.shim a b :: t) =
          (BatchNode.shim a b :: (filter_seen seen t).1,
           (filter_seen seen t).2) from by simp [filter_seen]]
      show streamOK ins li d (BatchNode.shim a b :: (filter_seen seen t).1) = true
      simp only [streamOK, Bool.and_eq_true]
      refine ⟨h'.1, ih seen (keyOf (BatchNode.shim a b) :: d) h'.2 ?_⟩
      intro x hx
      exact List.mem_cons_of_mem _ (hseen x hx)

theorem runStream_bool_meaning (env lenv : String → Bool) (ins : Finset String)
    (li : PM Bool) (items : List BatchNode)
    (hsf : shimFree items = true) (hok : streamOK ins li [] items = true) :
    ∀ p ∈ runStream boolAlg env lenv items ([] : List (Node × Bool)),
      p.2 = evalNode env lenv p.1 :=
  runStream_meaning boolAlg env lenv env lenv (fun v => v) rfl
    (fun _ _ => rfl) (fun _ => rfl) (fun _ => rfl) (fun _ => rfl)
    ins li items [] [] hsf hok
    (by intro p hp; simp at hp) (by intro n hn; simp at hn)

/-- Claim C8 (amended): for circuits A and B with disjoint latches and
disjoint outputs whose batch streams are shim-free and valid (so in
particular for lifted eager circuits; a Shim in the stream of a composed
operand can capture an Input node shared with the other operand and break
commutativity, see the counterexample), both parallel compositions succeed
and evaluating A | B on any total boolean assignment of the combined inputs
yields the same output assignment, as map equality, as evaluating B | A. -/
theorem claim_C8_or_commutes (A B : LazyAIG) (env : String → Bool)
    (hlat : A.latches ∩ B.latches = ∅)
    (hout : A.outputs ∩ B.outputs = ∅)
    (hcohA : pmKeys A.latch_map = pmKeys A.latch2init)
    (hcohB : pmKeys B.latch_map = pmKeys B.latch2init)
    (hsfA : shimFree A.iter_nodes.flatten = true)
    (hsfB : shimFree B.iter_nodes.flatten = true)
    (hokA : streamOK A.inputs A.latch2init [] A.iter_nodes.flatten = true)
    (hokB : streamOK B.inputs B.latch2init [] B.iter_nodes.flatten = true) :
    A.or B = Except.ok (A.orRaw B) ∧
    B.or A = Except.ok (B.orRaw A) ∧
    ((A.orRaw B).call env).1 = ((B.orRaw A).call env).1 := by
  have hlat' : pmKeys A.latch_map ∩ pmKeys B.latch_map = ∅ := hlat
  have hout' : pmKeys A.node_map ∩ pmKeys B.node_map = ∅ := hout
  have hl2i : pmKeys A.latch2init ∩ pmKeys B.latch2init = ∅ := by
    rw [← hcohA, ← hcohB]; exact hlat'
  have hl2iBA : pmKeys B.latch2init ∩ pmKeys A.latch2init = ∅ := by
    rw [Finset.inter_comm]; exact hl2i
  have hnmBA : pmKeys B.node_map ∩ pmKeys A.node_map = ∅ := by
    rw [Finset.inter_comm]; exact hout'
  have hlenv : initLenv (pmAdd A.latch2init B.latch2init) =
      initLenv (pmAdd B.latch2init A.latch2init) := by
    funext n
    unfold initLenv pmAdd
    rw [pmLookup_append_comm hl2iBA]
  -- combined streams
  have hflatAB : (A.orRaw B).iter_nodes.flatten =
      (filter_seen [] (A.iter_nodes.flatten ++ B.iter_nodes.flatten)).1 := by
    show (filterSeenBatches [] (A.iter_nodes ++ B.iter_nodes)).flatten = _
    rw [filterSeenBatches_flatten, List.flatten_append]
  have hflatBA : (B.orRaw A).iter_nodes.flatten =
      (filter_seen [] (B.iter_nodes.flatten ++ A.iter_nodes.flatten)).1 := by
    show (filterSeenBatches [] (B.iter_nodes ++ A.iter_nodes)).flatten = _
    rw [filterSeenBatches_flatten, List.flatten_append]
  -- weakening the operand validity facts to either composite context
  have hliL : ∀ (m1 m2 : PM Bool) (n : String), (pmLookup m1 n).isSome = true →
      (pmLookup (m1 ++ m2) n).isSome = true := by
    intro m1 m2 n h
    rw [pmLookup_isSome_iff] at h ⊢
    rw [pmKeys_append]
    exact Finset.mem_union_left _ h
  have hliR : ∀ (m1 m2 : PM Bool) (n : String), (pmLookup m2 n).isSome = true →
      (pmLookup (m1 ++ m2) n).isSome = true := by
    intro m1 m2 n h
    rw [pmLookup_isSome_iff] at h ⊢
    rw [pmKeys_append]
    exact Finset.mem_union_right _ h
  have hcatAB : streamOK (A.inputs ∪ B.inputs) (pmAdd A.latch2init B.latch2init)
      [] (A.iter_nodes.flatten ++ B.iter_nodes.flatten) = true := by
    rw [streamOK_append]
    constructor
    · exact streamOK_mono Finset.subset_union_left (hliR B.latch2init A.latch2init)
        A.iter_nodes.flatten [] [] (fun x hx => hx) hokA
    · exact streamOK_mono Finset.subset_union_right (hliL B.latch2init A.latch2init)
        B.iter_nodes.flatten [] _ (by intro x hx; simp at hx) hokB
  have hcatBA : streamOK (A.inputs ∪ B.inputs) (pmAdd B.latch2init A.latch2init)
      [] (B.iter_nodes.flatten ++ A.iter_nodes.flatten) = true := by
    rw [streamOK_append]
    constructor
    · exact streamOK_mono Finset.subset_union_right (hliR A.latch2init B.latch2init)
        B.iter_nodes.flatten [] [] (fun x hx => hx) hokB
    · exact streamOK_mono Finset.subset_union_left (hliL A.latch2init B.latch2init)
        A.iter_nodes.flatten [] _ (by intro x hx; simp at hx) hokA
  have hokAB : streamOK (A.inputs ∪ B.inputs) (pmAdd A.latch2init B.latch2init)
      [] (A.orRaw B).iter_nodes.flatten = true := by
    rw [hflatAB]
    exact filter_streamOK _ _ _ [] [] hcatAB (by intro x hx; simp at hx)
  have hokBA : streamOK (A.inputs ∪ B.inputs) (pmAdd B.latch2init A.latch2init)
      [] (B.orRaw A).iter_nodes.flatten = true := by
    rw [hflatBA]
    exact filter_streamOK _ _ _ [] [] hcatBA (by intro x hx; simp at hx)
  have hsfAB : shimFree (A.orRaw B).iter_nodes.flatten = true := by
    rw [hflatAB]
    refine shimFree_filter _ [] ?_
    rw [shimFree_append, hsfA, hsfB]
    rfl
  have hsfBA : shimFree (B.orRaw A).iter_nodes.flatten = true := by
    rw [hflatBA]
    refine shimFree_filter _ [] ?_
    rw [shimFree_append, hsfA, hsfB]
    rfl
  -- table lookups mean structural evaluation, on both sides
  have hmeanAB := runStream_bool_meaning env (initLenv (pmAdd A.latch2init B.latch2init))
    (A.inputs ∪ B.inputs) (pmAdd A.latch2init B.latch2init)
    (A.orRaw B).iter_nodes.flatten hsfAB hokAB
  have hmeanBA := runStream_bool_meaning env (initLenv (pmAdd B.latch2init A.latch2init))
    (A.inputs ∪ B.inputs) (pmAdd B.latch2init A.latch2init)
    (B.orRaw A).iter_nodes.flatten hsfBA hokBA
  -- the two tables are defined on the same node keys
  have hkeysAB : ∀ nd : Node,
      (tlookup (runStream boolAlg env (initLenv (pmAdd A.latch2init B.latch2init))
        (A.orRaw B).iter_nodes.flatten []) nd).isSome = true ↔
      (nd ∈ (A.iter_nodes.flatten ++ B.iter_nodes.flatten).map keyOf) := by
    intro nd
    rw [runStream_keys, hflatAB]
    constructor
    · rintro (h | h)
      · have := (filter_seen_keys nd (A.iter_nodes.flatten ++ B.iter_nodes.flatten) []).mp (Or.inl h)
        simpa using this
      · simp [tlookup] at h
    · intro h
      refine Or.inl ?_
      have := (filter_seen_keys nd (A.iter_nodes.flatten ++ B.iter_nodes.flatten) []).mpr (Or.inl h)
      simpa using this
  have hkeysBA : ∀ nd : Node,
      (tlookup (runStream boolAlg env (initLenv (pmAdd B.latch2init A.latch2init))
        (B.orRaw A).iter_nodes.flatten []) nd).isSome = true ↔
      (nd ∈ (A.iter_nodes.flatten ++ B.iter_nodes.flatten).map keyOf) := by
    intro nd
    rw [runStream_keys, hflatBA]
    constructor
    · rintro (h | h)
      · have := (filter_seen_keys nd (B.iter_nodes.flatten ++ A.iter_nodes.flatten) []).mp (Or.inl h)
        simp only [List.map_append, List.mem_append] at this ⊢
        tauto
      · simp [tlookup] at h
    · intro h
      refine Or.inl ?_
      have hh : nd ∈ (B.iter_nodes.flatten ++ A.iter_nodes.flatten).map keyOf := by
        simp only [List.map_append, List.mem_append] at h ⊢
        tauto
      have := (filter_seen_keys nd (B.iter_nodes.flatten ++ A.iter_nodes.flatten) []).mpr (Or.inl hh)
      simpa using this
  refine ⟨?_, ?_, ?_⟩
  · rw [or_eq_ite, if_pos ⟨hlat, hout⟩]
  · rw [or_eq_ite,
      if_pos ⟨by rw [Finset.inter_comm]; exact hlat, by rw [Finset.inter_comm]; exact hout⟩]
  · have hcallAB : ((A.orRaw B).call env).1 = fun o =>
        (pmLookup (pmAdd A.node_map B.node_map) o).map
          (fun nd => tlookupD boolAlg (runStream boolAlg env
            (initLenv (pmAdd A.latch2init B.latch2init))
            (A.orRaw B).iter_nodes.flatten []) nd) := rfl
    have hcallBA : ((B.orRaw A).call env).1 = fun o =>
        (pmLookup (pmAdd B.node_map A.node_map) o).map
          (fun nd => tlookupD boolAlg (runStream boolAlg env
            (initLenv (pmAdd B.latch2init A.latch2init))
            (B.orRaw A).iter_nodes.flatten []) nd) := rfl
    rw [hcallAB, hcallBA]
    funext o
    show (pmLookup (B.node_map ++ A.node_map) o).map _ =
      (pmLookup (A.node_map ++ B.node_map) o).map _
    rw [pmLookup_append_comm hnmBA]
    cases hl : pmLookup (A.node_map ++ B.node_map) o with
    | none => rfl
    | some nd =>
      simp only [Option.map_some']
      by_cases hmem : nd ∈ (A.iter_nodes.flatten ++ B.iter_nodes.flatten).map keyOf
      · have hsAB := (hkeysAB nd).mpr hmem
        have hsBA := (hkeysBA nd).mpr hmem
        cases hvAB : tlookup (runStream boolAlg env
            (initLenv (pmAdd A.latch2init B.latch2init))
            (A.orRaw B).iter_nodes.flatten []) nd with
        | none => rw [hvAB] at hsAB; simp at hsAB
        | some vAB =>
          cases hvBA : tlookup (runStream boolAlg env
              (initLenv (pmAdd B.latch2init A.latch2init))
              (B.orRaw A).iter_nodes.flatten []) nd with
          | none => rw [hvBA] at hsBA; simp at hsBA
          | some vBA =>
            have e1 : vAB = evalNode env (initLenv (pmAdd A.latch2init B.latch2init)) nd :=
              hmeanAB (nd, vAB) (tlookup_mem hvAB)
            have e2 : vBA = evalNode env (initLenv (pmAdd B.latch2init A.latch2init)) nd :=
              hmeanBA (nd, vBA) (tlookup_mem hvBA)
            simp only [tlookupD, hvAB, hvBA, Option.getD_some]
            rw [e1, e2, hlenv]
      · have hsAB : tlookup (runStream boolAlg env
            (initLenv (pmAdd A.latch2init B.latch2init))
            (A.orRaw B).iter_nodes.flatten []) nd = none := by
          cases hv : tlookup (runStream boolAlg env
              (initLenv (pmAdd A.latch2init B.latch2init))
              (A.orRaw B).iter_nodes.flatten []) nd with
          | none => rfl
          | some v =>
            exact absurd ((hkeysAB nd).mp (by rw [hv]; rfl)) hmem
        have hsBA : tlookup (runStream boolAlg env
            (initLenv (pmAdd B.latch2init A.latch2init))
            (B.orRaw A).iter_nodes.flatten []) nd = none := by
          cases hv : tlookup (runStream boolAlg env
              (initLenv (pmAdd B.latch2init A.latch2init))
              (B.orRaw A).iter_nodes.flatten []) nd with
          | none => rfl
          | some v =>
            exact absurd ((hkeysBA nd).mp (by rw [hv]; rfl)) hmem
        simp only [tlookupD, hsAB, hsBA]

theorem claim_C8_witness :
    ((witA.orRaw witB).call witEnv).1 = ((witB.orRaw witA).call witEnv).1 :=
  (claim_C8_or_commutes witA witB witEnv (by decide) (by decide) (by decide)
    (by decide) (by decide) (by decide) (by decide) (by decide)).2.2

/-- Upstream half of the counterexample: input x, output z reading it. -/
def cexA1 : LazyAIG :=
  { iter_nodes := [[BatchNode.pure (Node.input "x")]]
    inputs := {"x"}
    latch2init := []
    node_map := [("z", Node.input "x")]
    latch_map := []
    comments := [] }

/-- Downstream half of the counterexample: input z, output o reading it. -/
def cexA2 : LazyAIG :=
  { iter_nodes := [[BatchNode.pure (Node.input "z")]]
    inputs := {"z"}
    latch2init := []
    node_map := [("o", Node.input "z")]
    latch_map := []
    comments := [] }

/-- The composed circuit cexA1 >> cexA2: its stream shims the Input node z
to the node of cexA1 for output z. -/
def cexA : LazyAIG := cexA1.rshiftRaw cexA2

/-- A circuit with a free input named z, the interface name consumed inside
cexA, and output w reading it. -/
def cexB : LazyAIG :=
  { iter_nodes := [[BatchNode.pure (Node.input "z")]]
    inputs := {"z"}
    latch2init := []
    node_map := [("w", Node.input "z")]
    latch_map := []
    comments := [] }

/-- The assignment sending x to true and z (and every other name) to
false. -/
def cexEnv : String → Bool := fun s => s == "x"

/-- Claim C8, refuted as stated: cexA and cexB satisfy the preconditions
(disjoint latches, disjoint outputs), both compositions succeed, yet on the
assignment cexEnv the output o of cexA | cexB is false while the same output
of cexB | cexA is true, so the two output assignments differ: the Shim in
the stream of cexA captures the Input node of the shared name z that cexB
redeclares. -/
theorem claim_C8_counterexample :
    cexA1.rshift cexA2 = Except.ok cexA ∧
    cexA.latches ∩ cexB.latches = ∅ ∧
    cexA.outputs ∩ cexB.outputs = ∅ ∧
    cexA.or cexB = Except.ok (cexA.orRaw cexB) ∧
    cexB.or cexA = Except.ok (cexB.orRaw cexA) ∧
    ((cexA.orRaw cexB).call cexEnv).1 "o" = some false ∧
    ((cexB.orRaw cexA).call cexEnv).1 "o" = some true ∧
    ((cexA.orRaw cexB).call cexEnv).1 ≠ ((cexB.orRaw cexA).call cexEnv).1 := by
  have h6 : ((cexA.orRaw cexB).call cexEnv).1 "o" = some false := by decide
  have h7 : ((cexB.orRaw cexA).call cexEnv).1 "o" = some true := by decide
  refine ⟨?_, by decide, by decide, ?_, ?_, h6, h7, ?_⟩
  · rw [rshift_eq_ite, if_pos ⟨by decide, by decide⟩]
    rfl
  · rw [or_eq_ite, if_pos ⟨by decide, by decide⟩]
  · rw [or_eq_ite, if_pos ⟨by decide, by decide⟩]
  · intro hcon
    have h0 := congrFun hcon "o"
    rw [h6, h7] at h0
    simp at h0
